import Mathlib

/-!
Verification development for the Creator Insight Extraction app.

The program (src/main.py) ranks creator records from a table against a
parsed query: a category filter, an optional numeric follower filter parsed
from text, a follower-count normalization, a weighted score, and a
descending sort.  The definitions below are a shallow embedding of that
code: strings are lists of characters, the dataframe is a list of records,
pandas float columns are modelled by rationals, and the fallible parsing
steps return Option.
-/

namespace CreatorInsight

/-- Strings are modelled as lists of characters. -/
abbrev Str := List Char

/-- The double-quote character (written via its code point). -/
def quoteCh : Char := Char.ofNat 34

/-- The apostrophe (single-quote) character (written via its code point). -/
def aposCh : Char := Char.ofNat 39

/-- The backslash character (written via its code point). -/
def backslashCh : Char := Char.ofNat 92

/-- Models Python str.lower applied character by character (the categories and
queries in play are ASCII, where per-character lowering agrees with Python). -/
def lowerStr (s : Str) : Str := s.map Char.toLower

/-- Models the regex class backslash-s of Python re on the ASCII range:
space, tab, newline, carriage return, vertical tab, form feed. -/
def pySpace (c : Char) : Bool :=
  c = ' ' || c = '\t' || c = '\n' || c = '\r' || c = Char.ofNat 11 || c = Char.ofNat 12

/-- Models the regex class backslash-d of Python re on the ASCII range. -/
def isDigitCh (c : Char) : Bool := '0' ≤ c && c ≤ '9'

/-- Value of a digit string, as int() computes it on the matched digits. -/
def digitsVal (d : Str) : Nat := d.foldl (fun a c => a * 10 + (c.toNat - 48)) 0

/-- Models Python str.strip(): whitespace removed from both ends. -/
def stripStr (s : Str) : Str := ((s.dropWhile pySpace).reverse.dropWhile pySpace).reverse

/-- One creator row of the dataframe (src/main.py loads the CSV and normalizes
column names, line 24-28).  The three engagement columns are fed through
pd.to_numeric(errors := coerce) at lines 130-132, so a dirty cell is modelled
as none and the coercion as Option.getD 0.  follower_count is a non-negative
integer column. -/
structure Record where
  name : Str
  category : Str
  follower_count : Nat
  engagement_rate : Option ℚ
  average_likes_per_post : Option ℚ
  average_comments_per_post : Option ℚ
  deriving DecidableEq

/-- A scored output row: the record plus the derived columns Follower_Score,
avg_likes_comments and Score added by rank_creators (lines 124-140). -/
structure Scored where
  row : Record
  follower_score : ℚ
  likes_comments : ℚ
  score : ℚ
  deriving DecidableEq

/-- Operator characters accepted by the follower-filter regex group. -/
def opChar (c : Char) : Bool := c = '>' || c = '<' || c = '='

/-- Embeds line 113 of src/main.py: re.match of an operator in square
brackets, optional whitespace, then one or more digits, against the filter
text.  re.match anchors at the very start of the text, so the first
character must itself be the operator: no leading whitespace is skipped.
Whitespace and digit characters are disjoint, so the greedy quantifiers
need no backtracking and dropWhile/takeWhile are exact. -/
def parse_comparison : Str → Option (Char × Nat)
  | [] => none
  | c :: rest =>
    if opChar c then
      let digits := (rest.dropWhile pySpace).takeWhile isDigitCh
      if digits.isEmpty then none else some (c, digitsVal digits)
    else none

/-- Embeds line 110 of src/main.py: keep the rows whose lower-cased category
equals the lower-cased requested category. -/
def categoryFilter (records : List Record) (category : Str) : List Record :=
  records.filter (fun r => lowerStr r.category == lowerStr category)

/-- Embeds lines 117-122 of src/main.py: the comparison of follower_count
against the parsed value, for each of the three operators.  An operator
outside the set leaves the frame unchanged (the regex group guarantees this
branch is never taken). -/
def applyNumeric (l : List Record) (op : Char) (v : Nat) : List Record :=
  if op = '>' then l.filter (fun r => decide (v < r.follower_count))
  else if op = '<' then l.filter (fun r => decide (r.follower_count < v))
  else if op = '=' then l.filter (fun r => decide (r.follower_count = v))
  else l

/-- Embeds lines 110-122 of src/main.py: the category filter followed by the
optional numeric follower filter.  The isEmpty test mirrors the Python
truthiness test on the filter string at line 112 (an empty string skips the
regex entirely). -/
def filteredRecords (records : List Record) (category : Str)
    (follower_filter : Option Str) : List Record :=
  let df1 := categoryFilter records category
  match follower_filter with
  | none => df1
  | some s =>
    if s.isEmpty then df1
    else
      match parse_comparison s with
      | some (op, v) => applyNumeric df1 op v
      | none => df1

/-- Embeds line 124 of src/main.py: pandas max() over the follower_count
column, which is NaN (here none) on an empty frame. -/
def maxFollowers : List Record → Option Nat
  | [] => none
  | r :: rs => some (rs.foldl (fun m x => max m x.follower_count) r.follower_count)

/-- Embeds lines 125-128 of src/main.py: Follower_Score is
follower_count / max_followers when the max is defined and positive, else 0. -/
def followerScoreOf (maxf : Option Nat) (r : Record) : ℚ :=
  match maxf with
  | some m => if 0 < m then (r.follower_count : ℚ) / (m : ℚ) else 0
  | none => 0

/-- Embeds lines 125-140 of src/main.py: the derived columns of one row.
The engagement and likes/comments columns are the coerced values (a cell
that failed to parse counts as 0, lines 130-132); avg_likes_comments is
their sum (line 134); Score is the weighted sum of line 136-140. -/
def mkScored (maxf : Option Nat) (w_eng w_fol w_likes : ℚ) (r : Record) : Scored :=
  let fs := followerScoreOf maxf r
  let lc := r.average_likes_per_post.getD 0 + r.average_comments_per_post.getD 0
  { row := r, follower_score := fs, likes_comments := lc,
    score := r.engagement_rate.getD 0 * w_eng + fs * w_fol + lc * w_likes }

/-- Ordering used for the descending sort: a precedes b when b's score is at
most a's. -/
def scoreGE (a b : Scored) : Prop := b.score ≤ a.score

instance : DecidableRel scoreGE := fun a b => inferInstanceAs (Decidable (b.score ≤ a.score))

/-- Embeds rank_creators (src/main.py lines 109-142): filter by category and
optional follower comparison, normalize the follower score against the max of
the filtered frame, compute the weighted Score, and sort by Score descending
(line 141).  The sort is modelled as a stable descending sort: pandas
sort_values reverses the column and the index, argsorts with numpy's default
quicksort, and reverses again, and numpy's introsort runs its stable
insertion-sort path for arrays of at most 16 elements, for which this model
is exact; above that threshold introsort's partitioning can reorder equal
scores (see the discussion of the stability claim). -/
def rank_creators (records : List Record) (category : Str) (follower_filter : Option Str)
    (w_eng w_fol w_likes : ℚ) : List Scored :=
  let df2 := filteredRecords records category follower_filter
  List.insertionSort scoreGE (df2.map (mkScored (maxFollowers df2) w_eng w_fol w_likes))

/-- Embeds lines 217-218 of src/main.py: an empty filter text, or one whose
stripped lower-casing is the text show all, is replaced by None before
rank_creators is called. -/
def normalize_follower_filter (s : Str) : Option Str :=
  if s = [] ∨ lowerStr (stripStr s) = "show all".toList then none else some s

/-- The main-path pipeline from the follower-filter text box to the ranked
frame (src/main.py lines 216-221): normalize the filter text, then rank. -/
def run_pipeline (records : List Record) (category : Str) (follower_filter : Str)
    (w_eng w_fol w_likes : ℚ) : List Scored :=
  rank_creators records category (normalize_follower_filter follower_filter) w_eng w_fol w_likes

/-- Tests whether the first argument is an initial segment of the second. -/
def leadsWith : Str → Str → Bool
  | [], _ => true
  | _ :: _, [] => false
  | a :: s, b :: t => a == b && leadsWith s t

/-- Models the Python substring test (needle in hay) on lists of
characters. -/
def containsSub (hay needle : Str) : Bool :=
  match hay with
  | [] => needle.isEmpty
  | _ :: t => leadsWith needle hay || containsSub t needle

/-- Embeds extract_category_basic (src/main.py lines 62-67): lower-case the
query, scan the categories in order, and return the first whose lower-cased
name occurs inside the query; None when none does.  The for-loop with an
early return is List.find?. -/
def extract_category_basic (query : Str) (categories : List Str) : Option Str :=
  categories.find? (fun c => containsSub (lowerStr query) (lowerStr c))

/-- Helper for the brace-block regex: the characters after an opening brace
up to and including the first closing brace, or none when no closing brace
follows. -/
def upToClose : Str → Option Str
  | [] => none
  | c :: t => if c = '}' then some ['}'] else (upToClose t).map (fun m => c :: m)

/-- Embeds line 93 of src/main.py: re.search of a non-greedy brace-delimited
block with DOTALL, i.e. the substring from the first opening brace to the
next closing brace after it.  When the first opening brace has no closing
brace after it, no later opening brace has one either, so the whole search
fails. -/
def extractBraceBlock : Str → Option Str
  | [] => none
  | c :: t => if c = '{' then (upToClose t).map (fun m => '{' :: m) else extractBraceBlock t

/-- Embeds the replace call at line 97 of src/main.py: every single quote
becomes a double quote before json.loads. -/
def replaceQuotes (s : Str) : Str := s.map (fun c => if c = aposCh then quoteCh else c)

/-- Decoded values: the common shape of a json.loads result and of the dict
and list literals the eval fallback can return.  Keys are values so that the
Python path can accept number and literal keys. -/
inductive J where
  | jnull
  | jbool (b : Bool)
  | jnum (q : ℚ)
  | jstr (s : Str)
  | jarr (elems : List J)
  | jobj (members : List (J × J))

/-- Whitespace accepted between JSON tokens (Python json accepts exactly
these four characters). -/
def jsonWs (c : Char) : Bool := c = ' ' || c = '\t' || c = '\n' || c = '\r'

/-- Decodes one short escape character of a JSON string. -/
def escChar (c : Char) : Option Char :=
  if c = quoteCh then some quoteCh
  else if c = backslashCh then some backslashCh
  else if c = '/' then some '/'
  else if c = 'b' then some (Char.ofNat 8)
  else if c = 'f' then some (Char.ofNat 12)
  else if c = 'n' then some '\n'
  else if c = 'r' then some '\r'
  else if c = 't' then some '\t'
  else none

/-- Value of one hexadecimal digit. -/
def hexVal (c : Char) : Option Nat :=
  if isDigitCh c then some (c.toNat - 48)
  else if 'a' ≤ c ∧ c ≤ 'f' then some (c.toNat - 87)
  else if 'A' ≤ c ∧ c ≤ 'F' then some (c.toNat - 55)
  else none

/-- Parses the body of a string literal delimited by the quote q, after the
opening quote has been consumed: returns the decoded contents and the rest
of the input after the closing quote.  Unescaped control characters are
rejected, as Python json.loads does in its default strict mode. -/
def parseStrRest (q : Char) : Str → Option (Str × Str)
  | [] => none
  | c :: t =>
    if c = q then some ([], t)
    else if c = backslashCh then
      match t with
      | [] => none
      | e :: t2 =>
        if e = 'u' then
          match t2 with
          | h1 :: h2 :: h3 :: h4 :: t6 =>
            match hexVal h1, hexVal h2, hexVal h3, hexVal h4 with
            | some a, some b, some c2, some d =>
              (parseStrRest q t6).map
                (fun p => (Char.ofNat (((a * 16 + b) * 16 + c2) * 16 + d) :: p.1, p.2))
            | _, _, _, _ => none
          | _ => none
        else
          match (if e = q then some q else escChar e) with
          | some ch => (parseStrRest q t2).map (fun p => (ch :: p.1, p.2))
          | none => none
    else if c.toNat < 32 then none
    else (parseStrRest q t).map (fun p => (c :: p.1, p.2))

/-- Parses a number: optional minus sign, digits, optional fractional part
(exponents are not modelled; none of the claims involves one). -/
def parseNumQ (s : Str) : Option (ℚ × Str) :=
  let negP : Bool := match s with
    | c :: _ => decide (c = '-')
    | [] => false
  let s1 := if negP then s.tail else s
  let ds := s1.takeWhile isDigitCh
  if ds.isEmpty then none
  else
    let r1 := s1.dropWhile isDigitCh
    let ip : ℚ := (digitsVal ds : ℚ)
    match r1 with
    | c :: t =>
      if c = '.' then
        let fracs := t.takeWhile isDigitCh
        if fracs.isEmpty then none
        else
          let v := ip + (digitsVal fracs : ℚ) / ((10 : ℚ) ^ fracs.length)
          some ((if negP then -v else v), t.dropWhile isDigitCh)
      else some ((if negP then -ip else ip), r1)
    | [] => some ((if negP then -ip else ip), [])

/-- Keyword literals of each flavor: true, false and null for JSON;
True, False and None for the Python fallback. -/
def litTok (py : Bool) : List (Str × J) :=
  if py then
    [("True".toList, J.jbool true), ("False".toList, J.jbool false), ("None".toList, J.jnull)]
  else
    [("true".toList, J.jbool true), ("false".toList, J.jbool false), ("null".toList, J.jnull)]

/-- Tries each keyword literal as an initial segment of the input. -/
def tryLits (s : Str) : List (Str × J) → Option (J × Str)
  | [] => none
  | (tok, v) :: rest => if leadsWith tok s then some (v, s.drop tok.length) else tryLits s rest

/-- Parses a key of an object or dict: JSON keys must be strings; the Python
flavor also accepts single-quoted strings and number and keyword keys. -/
def parseKey (py : Bool) (s : Str) : Option (J × Str) :=
  match s.dropWhile jsonWs with
  | [] => none
  | c :: t =>
    if c = quoteCh then (parseStrRest quoteCh t).map (fun p => (J.jstr p.1, p.2))
    else if py && c = aposCh then (parseStrRest aposCh t).map (fun p => (J.jstr p.1, p.2))
    else if py then
      match tryLits (c :: t) (litTok py) with
      | some (v, r) => some (v, r)
      | none => (parseNumQ (c :: t)).map (fun p => (J.jnum p.1, p.2))
    else none

mutual

/-- Recursive-descent value parser shared by the model of json.loads
(py := false) and the model of the eval fallback on literal displays
(py := true).  The fuel argument only bounds the recursion depth; callers
pass more fuel than any input can consume. -/
def parseVal (py : Bool) : Nat → Str → Option (J × Str)
  | 0, _ => none
  | f + 1, s =>
    match s.dropWhile jsonWs with
    | [] => none
    | c :: t =>
      if c = '{' then parseObjBody py f t
      else if c = '[' then parseArrBody py f t
      else if c = quoteCh then (parseStrRest quoteCh t).map (fun p => (J.jstr p.1, p.2))
      else if py && c = aposCh then (parseStrRest aposCh t).map (fun p => (J.jstr p.1, p.2))
      else
        match tryLits (c :: t) (litTok py) with
        | some (v, r) => some (v, r)
        | none => (parseNumQ (c :: t)).map (fun p => (J.jnum p.1, p.2))

/-- Parses the remainder of an object after its opening brace. -/
def parseObjBody (py : Bool) : Nat → Str → Option (J × Str)
  | 0, _ => none
  | f + 1, s =>
    match s.dropWhile jsonWs with
    | [] => none
    | c :: t =>
      if c = '}' then some (J.jobj [], t)
      else (parseMembers py f (c :: t)).map (fun p => (J.jobj p.1, p.2))

/-- Parses one or more key-value members, ended by a closing brace. -/
def parseMembers (py : Bool) : Nat → Str → Option (List (J × J) × Str)
  | 0, _ => none
  | f + 1, s =>
    match parseKey py s with
    | none => none
    | some (k, r1) =>
      match r1.dropWhile jsonWs with
      | [] => none
      | c2 :: r2 =>
        if c2 = ':' then
          match parseVal py f r2 with
          | none => none
          | some (v, r3) =>
            match r3.dropWhile jsonWs with
            | [] => none
            | c4 :: r4 =>
              if c4 = ',' then
                match parseMembers py f r4 with
                | none => none
                | some (ms, r5) => some ((k, v) :: ms, r5)
              else if c4 = '}' then some ([(k, v)], r4)
              else none
        else none

/-- Parses the remainder of an array after its opening bracket. -/
def parseArrBody (py : Bool) : Nat → Str → Option (J × Str)
  | 0, _ => none
  | f + 1, s =>
    match s.dropWhile jsonWs with
    | [] => none
    | c :: t =>
      if c = ']' then some (J.jarr [], t)
      else (parseElems py f (c :: t)).map (fun p => (J.jarr p.1, p.2))

/-- Parses one or more array elements, ended by a closing bracket. -/
def parseElems (py : Bool) : Nat → Str → Option (List J × Str)
  | 0, _ => none
  | f + 1, s =>
    match parseVal py f s with
    | none => none
    | some (v, r1) =>
      match r1.dropWhile jsonWs with
      | [] => none
      | c :: r2 =>
        if c = ',' then
          match parseElems py f r2 with
          | none => none
          | some (vs, r3) => some (v :: vs, r3)
        else if c = ']' then some ([v], r2)
        else none

end

/-- Models json.loads called at line 97 of src/main.py on the extracted block
(after quote replacement): parse one value and require only whitespace to
remain. -/
def jsonLoads (s : Str) : Option J :=
  match parseVal false (s.length + 1) s with
  | some (v, r) => if (r.dropWhile jsonWs).isEmpty then some v else none
  | none => none

/-- Bracket scanner underlying the model of the eval fallback: walks the
text tracking whether it is inside a string literal (with escapes) and the
depth of braces outside string literals; fails on a closing brace at depth
zero or an unterminated string, and otherwise returns the final depth. -/
def braceScan : Str → Option Char → Bool → Int → Option Int
  | [], none, _, d => some d
  | [], some _, _, _ => none
  | c :: t, some q, esc, d =>
    if esc then braceScan t (some q) false d
    else if c = backslashCh then braceScan t (some q) true d
    else if c = q then braceScan t none false d
    else braceScan t (some q) false d
  | c :: t, none, _, d =>
    if c = quoteCh || c = aposCh then braceScan t (some c) false d
    else if c = '{' then braceScan t none false (d + 1)
    else if c = '}' then (if d ≤ 0 then none else braceScan t none false (d - 1))
    else braceScan t none false d

/-- Brace balance outside string literals: a necessary condition for any
text to parse as a Python expression, since every brace produced by the
Python grammar outside a string literal is matched. -/
def pyBracesBalanced (s : Str) : Bool := braceScan s none false 0 == some 0

/-- Models the eval fallback at line 99 of src/main.py.  Full Python eval is
not embeddable; the model keeps exactly what the claims need of it: Python's
compiler rejects (SyntaxError) any source whose braces are unbalanced
outside string literals, and on balanced dict, list, string, number and
keyword literal displays eval returns the displayed value, parsed here by
the permissive flavor of the shared parser.  A none models the exception
that the outer handler at lines 104-106 turns into a None return. -/
def pyEvalLiteral (s : Str) : Option J :=
  if pyBracesBalanced s then
    match parseVal true (s.length + 1) s with
    | some (v, r) => if (r.dropWhile jsonWs).isEmpty then some v else none
    | none => none
  else none

/-- Embeds lines 96-99 of src/main.py: try json.loads on the block with
single quotes replaced by double quotes; on failure fall back to eval on the
original block. -/
def decode_block (b : Str) : Option J :=
  match jsonLoads (replaceQuotes b) with
  | some v => some v
  | none => pyEvalLiteral b

/-- Embeds the response-text processing of parse_query_llm (src/main.py
lines 91-106): extract the first non-greedy brace block and decode it; when
no block is found, or decoding raises, the function reports the error in the
UI and returns None. -/
def parse_query_llm_text (s : Str) : Option J :=
  match extractBraceBlock s with
  | some b => decode_block b
  | none => none

/-- Creator A of the worked scenario in the spec: fashion, 20000 followers,
engagement 5.0, likes 100, comments 20. -/
def recA : Record := ⟨"A".toList, "fashion".toList, 20000, some 5, some 100, some 20⟩

/-- Creator B of the worked scenario in the spec: fashion, 10000 followers,
engagement 8.0, likes 50, comments 10. -/
def recB : Record := ⟨"B".toList, "fashion".toList, 10000, some 8, some 50, some 10⟩

attribute [local semireducible] Rat.mul Rat.inv Rat.add Rat.sub

/-! Helper lemmas about the scanning primitives. -/

/-- A character satisfying the whitespace class is one of its six members. -/
theorem pySpace_cases (c : Char) (h : pySpace c = true) :
    c = ' ' ∨ c = '\t' ∨ c = '\n' ∨ c = '\r' ∨ c = Char.ofNat 11 ∨ c = Char.ofNat 12 := by
  have h2 := h
  simp only [pySpace, Bool.or_eq_true, decide_eq_true_eq] at h2
  tauto

/-- Digits are not whitespace (the two regex classes are disjoint). -/
theorem digit_not_pySpace (c : Char) (h : isDigitCh c = true) : pySpace c = false := by
  cases hps : pySpace c with
  | false => rfl
  | true =>
    exfalso
    rcases pySpace_cases c hps with rfl | rfl | rfl | rfl | rfl | rfl <;>
      exact absurd h (by decide)

/-- dropWhile jumps over a block of characters that all satisfy the
predicate. -/
theorem dropWhile_append_of_all (p : Char → Bool) (ws t : Str)
    (h : ∀ c ∈ ws, p c = true) : (ws ++ t).dropWhile p = t.dropWhile p := by
  induction ws with
  | nil => rfl
  | cons a l ih =>
    have ha : p a = true := h a (by simp)
    simp only [List.cons_append, List.dropWhile_cons, ha, if_true]
    exact ih (fun c hc => h c (by simp [hc]))

/-- takeWhile collects exactly a block that all satisfies the predicate when
the first character after the block (if any) fails it. -/
theorem takeWhile_append_stop (p : Char → Bool) (ds rest : Str)
    (hds : ∀ c ∈ ds, p c = true) (hrest : ∀ c, rest.head? = some c → p c = false) :
    (ds ++ rest).takeWhile p = ds := by
  induction ds with
  | nil =>
    cases rest with
    | nil => rfl
    | cons a t => simp [List.takeWhile_cons, hrest a rfl]
  | cons a l ih =>
    have ha : p a = true := hds a (by simp)
    simp only [List.cons_append, List.takeWhile_cons, ha, if_true]
    rw [ih (fun c hc => hds c (by simp [hc]))]

/-- The head of a dropWhile result fails the predicate. -/
theorem head_dropWhile_false (p : Char → Bool) (l : Str) :
    ∀ c, (l.dropWhile p).head? = some c → p c = false := by
  induction l with
  | nil => intro c h; cases h
  | cons a t ih =>
    intro c h
    by_cases hp : p a = true
    · rw [List.dropWhile_cons, if_pos hp] at h
      exact ih c h
    · rw [List.dropWhile_cons, if_neg hp] at h
      have : a = c := by
        simpa using h
      subst this
      exact Bool.eq_false_iff.mpr hp

/-! Claim C1: the spec's worked scenario. -/

/-- C1 counterexample: on the worked scenario (records A and B, weights
0.5, 0.3, 0.2, category fashion, follower filter greater than 5000) the code
computes Score 134/5 = 26.8 for A (5.0 times 0.5, plus follower score 1.0
times 0.3, plus 120 likes and comments times 0.2 is 2.5 + 0.3 + 24), not the
27.3 the claim asserts.  B's score is 323/20 = 16.15 as claimed. -/
theorem C1_counterexample :
    (rank_creators [recA, recB] "fashion".toList (some ">5000".toList)
        ((1 : ℚ)/2) (3/10) (1/5)).map Scored.score = [134/5, 323/20] ∧
      (134 : ℚ)/5 ≠ 273/10 :=
  ⟨by decide, by decide⟩

/-- C1 amended: as the claim states, rank returns both records, assigns
follower score 1.0 to A and 0.5 to B, and ranks A first, but A's score is
26.8 (= 134/5), not 27.3; B's is 16.15 (= 323/20). -/
theorem C1_amended :
    rank_creators [recA, recB] "fashion".toList (some ">5000".toList)
        ((1 : ℚ)/2) (3/10) (1/5) =
      [⟨recA, 1, 120, 134/5⟩, ⟨recB, 1/2, 60, 323/20⟩] := by
  decide

/-! Claim C4: semantics of the numeric follower filter. -/

/-- C4: for each of the three operators, the numeric filter keeps exactly
the records whose follower count stands in that relation to the parsed
value; in particular with the operator greater-than and value 10000 a record
is in the output exactly when it is an input record with more than 10000
followers. -/
theorem C4_numeric_filter (l : List Record) (v : Nat) (r : Record) :
    (r ∈ applyNumeric l '>' v ↔ r ∈ l ∧ v < r.follower_count) ∧
    (r ∈ applyNumeric l '<' v ↔ r ∈ l ∧ r.follower_count < v) ∧
    (r ∈ applyNumeric l '=' v ↔ r ∈ l ∧ r.follower_count = v) := by
  have h1 : applyNumeric l '>' v = l.filter (fun r => decide (v < r.follower_count)) := rfl
  have h2 : applyNumeric l '<' v = l.filter (fun r => decide (r.follower_count < v)) := rfl
  have h3 : applyNumeric l '=' v = l.filter (fun r => decide (r.follower_count = v)) := rfl
  refine ⟨?_, ?_, ?_⟩ <;> simp [h1, h2, h3, List.mem_filter]

/-- C4 witness: a concrete record with more than 10000 followers is kept by
the greater-than filter. -/
theorem C4_witness : recA ∈ applyNumeric [recA] '>' 10000 :=
  (C4_numeric_filter [recA] 10000 recA).1.mpr ⟨by decide, by decide⟩

/-! Claim C8: behavior when the category is empty. -/

/-- C8 counterexample: a record whose own category is the empty string is
kept by the filter when the requested category is empty, so rank does not
return the empty sequence for every record set. -/
theorem C8_counterexample :
    rank_creators [⟨"X".toList, [], 5, some 1, some 1, some 1⟩] [] none 1 1 1 ≠ [] := by
  decide

/-- The numeric filter of an empty frame is empty. -/
theorem applyNumeric_nil (op : Char) (v : Nat) : applyNumeric [] op v = [] := by
  simp [applyNumeric]

/-- C8 amended: for record sets in which no record has an empty category,
calling rank with the empty category yields the empty ordered sequence (and,
the embedding being total, no error). -/
theorem C8_amended (records : List Record) (ff : Option Str) (w1 w2 w3 : ℚ)
    (h : ∀ r ∈ records, r.category ≠ []) :
    rank_creators records [] ff w1 w2 w3 = [] := by
  have hcat : categoryFilter records [] = [] := by
    refine List.filter_eq_nil_iff.mpr ?_
    intro r hr
    simp only [lowerStr, List.map_nil, beq_iff_eq, List.map_eq_nil_iff]
    exact h r hr
  have hfil : filteredRecords records [] ff = [] := by
    unfold filteredRecords
    rw [hcat]
    cases ff with
    | none => rfl
    | some s =>
      cases hs : s.isEmpty with
      | true => simp [hs]
      | false =>
        simp only [hs, if_false]
        cases hp : parse_comparison s with
        | none => rfl
        | some p => cases p with
          | mk op v => simp [applyNumeric_nil]
  unfold rank_creators
  rw [hfil]
  rfl

/-- C8 witness: a concrete record set with non-empty categories, where the
empty category yields the empty ranking. -/
theorem C8_witness : rank_creators [recA] [] none 1 1 1 = [] :=
  C8_amended [recA] none 1 1 1 (by decide)

/-! Claim C5: the follower-filter comparison parser. -/

/-- C5 counterexample: the regex is anchored at the start of the text, so a
single leading space makes the parse fail, while the same text without it
parses; the claim asserts that optional leading whitespace is accepted. -/
theorem C5_counterexample :
    parse_comparison (' ' :: ">10000".toList) = none ∧
      parse_comparison ">10000".toList = some ('>', 10000) :=
  ⟨by decide, by decide⟩

/-- C5 amended: parse_comparison accepts exactly the texts that start
immediately with one of the three operators (no leading whitespace),
followed by optional whitespace, one or more digits, and arbitrary trailing
text that does not begin with a further digit; it returns the operator and
the value of the digits, and returns nothing on every other text. -/
theorem C5_amended (s : Str) (op : Char) (n : Nat) :
    parse_comparison s = some (op, n) ↔
      ∃ ws ds rest, s = op :: (ws ++ (ds ++ rest)) ∧ opChar op = true ∧
        (∀ c ∈ ws, pySpace c = true) ∧ ds ≠ [] ∧ (∀ c ∈ ds, isDigitCh c = true) ∧
        (∀ c, rest.head? = some c → isDigitCh c = false) ∧ n = digitsVal ds := by
  constructor
  · intro h
    cases s with
    | nil => exact absurd h (by simp [parse_comparison])
    | cons c rest0 =>
      simp only [parse_comparison] at h
      by_cases hop : opChar c = true
      · rw [if_pos hop] at h
        by_cases hde : ((rest0.dropWhile pySpace).takeWhile isDigitCh).isEmpty = true
        · rw [if_pos hde] at h
          cases h
        · rw [if_neg hde] at h
          have hco : c = op ∧ digitsVal ((rest0.dropWhile pySpace).takeWhile isDigitCh) = n := by
            have := h
            injection this with h1
            injection h1 with h2 h3
            exact ⟨h2, h3⟩
          obtain ⟨h2, h3⟩ := hco
          subst h2
          subst h3
          refine ⟨rest0.takeWhile pySpace, (rest0.dropWhile pySpace).takeWhile isDigitCh,
            (rest0.dropWhile pySpace).dropWhile isDigitCh, ?_, hop, ?_, ?_, ?_, ?_, rfl⟩
          · rw [List.takeWhile_append_dropWhile, List.takeWhile_append_dropWhile]
          · intro x hx
            exact List.mem_takeWhile_imp hx
          · intro he
            rw [← List.isEmpty_iff] at he
            exact hde he
          · intro x hx
            exact List.mem_takeWhile_imp hx
          · exact head_dropWhile_false isDigitCh (rest0.dropWhile pySpace)
      · rw [if_neg hop] at h
        cases h
  · rintro ⟨ws, ds, rest, rfl, hop, hws, hne, hds, hrest, rfl⟩
    simp only [parse_comparison]
    rw [if_pos hop]
    have h1 : (ws ++ (ds ++ rest)).dropWhile pySpace = ds ++ rest := by
      rw [dropWhile_append_of_all pySpace ws (ds ++ rest) hws]
      cases ds with
      | nil => exact absurd rfl hne
      | cons d ds2 =>
        have hd : pySpace d = false := digit_not_pySpace d (hds d (by simp))
        simp [List.dropWhile_cons, hd]
    rw [h1, takeWhile_append_stop isDigitCh ds rest hds hrest]
    rw [if_neg]
    simp [List.isEmpty_iff, hne]

/-- C5 witness: the amended characterization instantiated on a concrete
accepted text with an operator, one space, one digit and trailing text. -/
theorem C5_witness : parse_comparison ('>' :: ([' '] ++ (['1'] ++ ['x']))) = some ('>', 1) :=
  (C5_amended ('>' :: ([' '] ++ (['1'] ++ ['x']))) '>' 1).mpr
    ⟨[' '], ['1'], ['x'], rfl, by decide, by decide, by decide, by decide,
      (by
        intro c hc
        injection hc with h2
        rw [← h2]
        decide), by decide⟩

/-! Claim C6: the substring-based category resolver. -/

/-- leadsWith tests exactly for an initial segment. -/
theorem leadsWith_iff (n h : Str) : leadsWith n h = true ↔ ∃ v, h = n ++ v := by
  induction n generalizing h with
  | nil =>
    simp only [leadsWith, List.nil_append]
    exact ⟨fun _ => ⟨h, rfl⟩, fun _ => trivial⟩
  | cons a t ih =>
    cases h with
    | nil =>
      simp [leadsWith]
    | cons b s =>
      simp only [leadsWith, Bool.and_eq_true, beq_iff_eq]
      constructor
      · rintro ⟨rfl, h2⟩
        obtain ⟨v, rfl⟩ := (ih s).mp h2
        exact ⟨v, rfl⟩
      · rintro ⟨v, hv⟩
        rw [List.cons_append] at hv
        injection hv with h1 h2
        exact ⟨h1.symm, (ih s).mpr ⟨v, h2⟩⟩

/-- containsSub tests exactly for occurrence as a contiguous substring. -/
theorem containsSub_iff (h n : Str) : containsSub h n = true ↔ ∃ u v, h = u ++ (n ++ v) := by
  induction h with
  | nil =>
    simp only [containsSub, List.isEmpty_iff]
    constructor
    · rintro rfl
      exact ⟨[], [], rfl⟩
    · rintro ⟨u, v, huv⟩
      rcases List.append_eq_nil.mp huv.symm with ⟨-, h2⟩
      exact (List.append_eq_nil.mp h2).1
  | cons a t ih =>
    simp only [containsSub, Bool.or_eq_true]
    constructor
    · rintro (h1 | h2)
      · obtain ⟨v, hv⟩ := (leadsWith_iff n (a :: t)).mp h1
        exact ⟨[], v, hv⟩
      · obtain ⟨u, v, rfl⟩ := ih.mp h2
        exact ⟨a :: u, v, rfl⟩
    · rintro ⟨u, v, huv⟩
      cases u with
      | nil =>
        exact Or.inl ((leadsWith_iff n (a :: t)).mpr ⟨v, by simpa using huv⟩)
      | cons x u2 =>
        rw [List.cons_append] at huv
        injection huv with h1 h2
        exact Or.inr (ih.mpr ⟨u2, v, h2⟩)

/-- find? returns the first element satisfying the predicate, in list order. -/
theorem find?_first (p : Str → Bool) (l : List Str) (x : Str) :
    l.find? p = some x ↔
      ∃ pre post, l = pre ++ x :: post ∧ p x = true ∧ ∀ y ∈ pre, p y = false := by
  induction l with
  | nil =>
    simp only [List.find?_nil]
    constructor
    · intro h; cases h
    · rintro ⟨pre, post, h, -, -⟩
      cases pre <;> cases h
  | cons a t ih =>
    by_cases ha : p a = true
    · rw [List.find?_cons_of_pos _ ha]
      constructor
      · intro h
        injection h with h
        exact ⟨[], t, by simp [h], by rw [← h]; exact ha, by simp⟩
      · rintro ⟨pre, post, hdec, hx, hpre⟩
        cases pre with
        | nil =>
          injection hdec with h1 h2
          rw [h1]
        | cons y pre2 =>
          injection hdec with h1 h2
          exact absurd (h1 ▸ ha) (by simp [hpre y (by simp)])
    · rw [List.find?_cons_of_neg _ ha]
      rw [ih]
      constructor
      · rintro ⟨pre, post, rfl, hx, hpre⟩
        refine ⟨a :: pre, post, rfl, hx, ?_⟩
        intro y hy
        rcases List.mem_cons.mp hy with rfl | hy2
        · exact Bool.eq_false_iff.mpr ha
        · exact hpre y hy2
      · rintro ⟨pre, post, hdec, hx, hpre⟩
        cases pre with
        | nil =>
          injection hdec with h1 h2
          exact absurd (h1 ▸ hx) ha
        | cons y pre2 =>
          injection hdec with h1 h2
          exact ⟨pre2, post, h2, hx, fun z hz => hpre z (by simp [hz])⟩

/-- C6: the resolver returns the first category, in the iteration order of
the vocabulary, whose lower-cased name occurs as a substring of the
lower-cased query; it returns nothing exactly when no name occurs; the
substring test means occurrence as a contiguous segment; and whenever some
known name occurs, a category is returned. -/
theorem C6_resolve_category (query : Str) (categories : List Str) :
    (∀ cat, extract_category_basic query categories = some cat ↔
      ∃ pre post, categories = pre ++ cat :: post ∧
        containsSub (lowerStr query) (lowerStr cat) = true ∧
        ∀ c ∈ pre, containsSub (lowerStr query) (lowerStr c) = false) ∧
    (extract_category_basic query categories = none ↔
      ∀ c ∈ categories, containsSub (lowerStr query) (lowerStr c) = false) ∧
    (∀ n, containsSub (lowerStr query) n = true ↔
      ∃ u v, lowerStr query = u ++ (n ++ v)) ∧
    ((∃ c ∈ categories, containsSub (lowerStr query) (lowerStr c) = true) →
      (extract_category_basic query categories).isSome = true) := by
  refine ⟨?_, ?_, ?_, ?_⟩
  · intro cat
    exact find?_first _ categories cat
  · unfold extract_category_basic
    rw [List.find?_eq_none]
    constructor
    · intro h c hc
      exact Bool.eq_false_iff.mpr (h c hc)
    · intro h c hc
      exact Bool.eq_false_iff.mp (h c hc)
  · intro n
    exact containsSub_iff (lowerStr query) n
  · rintro ⟨c, hc, hsub⟩
    cases hfind : extract_category_basic query categories with
    | some _ => rfl
    | none =>
      exfalso
      unfold extract_category_basic at hfind
      exact List.find?_eq_none.mp hfind c hc hsub

/-- C6 witness: a concrete query containing a known category name. -/
theorem C6_witness :
    (extract_category_basic "Find tech creators for my campaign".toList
      ["fashion".toList, "tech".toList]).isSome = true :=
  (C6_resolve_category "Find tech creators for my campaign".toList
      ["fashion".toList, "tech".toList]).2.2.2
    ⟨"tech".toList, by decide, by decide⟩

/-! Claim C3: the follower-score normalization. -/

/-- The seed of the running maximum bounds nothing above the result. -/
theorem foldl_max_init (rs : List Record) (a : Nat) :
    a ≤ rs.foldl (fun m x => max m x.follower_count) a := by
  induction rs generalizing a with
  | nil => exact le_refl a
  | cons r t ih => exact le_trans (le_max_left a r.follower_count) (ih _)

/-- Every element of the list is bounded by the running maximum. -/
theorem foldl_max_mem (rs : List Record) (r : Record) (h : r ∈ rs) :
    ∀ a : Nat, r.follower_count ≤ rs.foldl (fun m x => max m x.follower_count) a := by
  induction h with
  | head t =>
    intro a
    exact le_trans (le_max_right a r.follower_count) (foldl_max_init t _)
  | tail x hm ih =>
    intro a
    exact ih _

/-- The computed maximum bounds every follower count of the frame. -/
theorem maxFollowers_le (l : List Record) (m : Nat) (hm : maxFollowers l = some m)
    (r : Record) (hr : r ∈ l) : r.follower_count ≤ m := by
  cases l with
  | nil => cases hr
  | cons x t =>
    simp only [maxFollowers] at hm
    injection hm with hm
    subst hm
    cases hr with
    | head => exact foldl_max_init t _
    | tail _ h2 => exact foldl_max_mem t r h2 _

/-- Every element of the ranked output is the scoring of some record of the
filtered frame. -/
theorem mem_rank_creators (records : List Record) (cat : Str) (ff : Option Str)
    (w1 w2 w3 : ℚ) (s : Scored) (hs : s ∈ rank_creators records cat ff w1 w2 w3) :
    ∃ r ∈ filteredRecords records cat ff,
      s = mkScored (maxFollowers (filteredRecords records cat ff)) w1 w2 w3 r := by
  unfold rank_creators at hs
  have hp := (List.perm_insertionSort scoreGE _).mem_iff.mp hs
  obtain ⟨r, hr, rfl⟩ := List.mem_map.mp hp
  exact ⟨r, hr, rfl⟩

/-- C3: when the maximum follower count of the filtered frame is defined and
positive, every output row's follower score is its follower count divided by
that maximum, lies between 0 and 1, and equals 1 exactly on rows attaining
the maximum; when the frame is empty (maximum undefined) or the maximum is
0, every output row's follower score is 0. -/
theorem C3_follower_score_spec (records : List Record) (cat : Str) (ff : Option Str)
    (w1 w2 w3 : ℚ) (s : Scored) (hs : s ∈ rank_creators records cat ff w1 w2 w3) :
    (∀ m, maxFollowers (filteredRecords records cat ff) = some m → 0 < m →
      s.follower_score = (s.row.follower_count : ℚ) / (m : ℚ) ∧
      0 ≤ s.follower_score ∧ s.follower_score ≤ 1 ∧
      (s.row.follower_count = m → s.follower_score = 1)) ∧
    ((maxFollowers (filteredRecords records cat ff) = none ∨
      maxFollowers (filteredRecords records cat ff) = some 0) →
      s.follower_score = 0) := by
  obtain ⟨r, hr, rfl⟩ := mem_rank_creators records cat ff w1 w2 w3 s hs
  constructor
  · intro m hm hpos
    rw [hm]
    have hrow : (mkScored (some m) w1 w2 w3 r).row = r := rfl
    have hfs : (mkScored (some m) w1 w2 w3 r).follower_score
        = (r.follower_count : ℚ) / (m : ℚ) := by
      simp [mkScored, followerScoreOf, hpos]
    have hmpos : (0 : ℚ) < (m : ℚ) := by exact_mod_cast hpos
    refine ⟨by rw [hfs, hrow], ?_, ?_, ?_⟩
    · rw [hfs]
      exact div_nonneg (Nat.cast_nonneg _) (Nat.cast_nonneg _)
    · rw [hfs]
      exact (div_le_one hmpos).mpr
        (by exact_mod_cast maxFollowers_le (filteredRecords records cat ff) m hm r hr)
    · intro hattain
      rw [hrow] at hattain
      rw [hfs, hattain]
      exact div_self (ne_of_gt hmpos)
  · intro hdeg
    rcases hdeg with hnone | hzero
    · rw [hnone]
      simp [mkScored, followerScoreOf]
    · rw [hzero]
      simp [mkScored, followerScoreOf]

/-- C3 witness: a one-record frame where the maximum is the record's own
follower count, whose follower score the theorem pins to 1. -/
theorem C3_witness :
    (mkScored (some 20000) 1 1 1 recA).follower_score
        = ((mkScored (some 20000) 1 1 1 recA).row.follower_count : ℚ) / (20000 : ℚ) ∧
      (mkScored (some 20000) 1 1 1 recA).follower_score = 1 := by
  have h := C3_follower_score_spec [recA] "fashion".toList none 1 1 1
      (mkScored (some 20000) 1 1 1 recA) (by decide)
  have h2 := h.1 20000 (by decide) (by decide)
  exact ⟨h2.1, h2.2.2.2 (by decide)⟩

/-! Claim C7: texts without a comparison pattern apply no numeric filter. -/

/-- C7: whenever the comparison pattern is absent from the follower-filter
text (in particular for the empty text and for show all), the pipeline
result equals the ranking with no numeric filter, and its underlying records
are exactly (a permutation of) the category-filtered frame; the run is total,
so no error is raised. -/
theorem C7_no_numeric_filter (records : List Record) (cat : Str) (t : Str)
    (w1 w2 w3 : ℚ) (h : parse_comparison t = none) :
    run_pipeline records cat t w1 w2 w3 = rank_creators records cat none w1 w2 w3 ∧
    ((run_pipeline records cat t w1 w2 w3).map Scored.row).Perm
      (categoryFilter records cat) := by
  have hfil : filteredRecords records cat (normalize_follower_filter t)
      = categoryFilter records cat := by
    unfold normalize_follower_filter
    by_cases hc : t = [] ∨ lowerStr (stripStr t) = "show all".toList
    · rw [if_pos hc]
      rfl
    · rw [if_neg hc]
      unfold filteredRecords
      have hne : t.isEmpty = false := by
        cases t with
        | nil => exact absurd (Or.inl rfl) hc
        | cons a b => rfl
      simp [hne, h]
  have hnonefil : filteredRecords records cat none = categoryFilter records cat := rfl
  have hrank : run_pipeline records cat t w1 w2 w3
      = rank_creators records cat none w1 w2 w3 := by
    unfold run_pipeline rank_creators
    rw [hfil, hnonefil]
  refine ⟨hrank, ?_⟩
  rw [hrank]
  unfold rank_creators
  rw [hnonefil]
  have hperm := (List.perm_insertionSort scoreGE
    ((categoryFilter records cat).map
      (mkScored (maxFollowers (categoryFilter records cat)) w1 w2 w3))).map Scored.row
  have h3 : (((categoryFilter records cat).map
      (mkScored (maxFollowers (categoryFilter records cat)) w1 w2 w3)).map Scored.row)
      = categoryFilter records cat := by
    rw [List.map_map]
    exact List.map_id _
  rw [h3] at hperm
  exact hperm

/-- C7 witness: the show all text on a concrete one-record frame. -/
theorem C7_witness :
    run_pipeline [recA] "fashion".toList "show all".toList 1 1 1 =
      rank_creators [recA] "fashion".toList none 1 1 1 ∧
    ((run_pipeline [recA] "fashion".toList "show all".toList 1 1 1).map Scored.row).Perm
      (categoryFilter [recA] "fashion".toList) :=
  C7_no_numeric_filter [recA] "fashion".toList "show all".toList 1 1 1 (by decide)

/-! Claim C9: extraction of the first brace-delimited block. -/

/-- upToClose returns the segment up to and including the first closing
brace. -/
theorem upToClose_spec (mid post : Str) (hmid : '}' ∉ mid) :
    upToClose (mid ++ '}' :: post) = some (mid ++ ['}']) := by
  induction mid with
  | nil => simp [upToClose]
  | cons a t ih =>
    have ha : a ≠ '}' := fun he => hmid (he ▸ List.mem_cons_self a t)
    simp only [List.cons_append, upToClose, if_neg ha, List.append_eq]
    rw [ih (fun hm => hmid (List.mem_cons_of_mem a hm))]
    rfl

/-- On a text decomposed around its first opening brace and the first
closing brace after it, extraction returns exactly that block. -/
theorem extract_decomp_pos (pre mid post : Str) (hpre : '{' ∉ pre) (hmid : '}' ∉ mid) :
    extractBraceBlock (pre ++ '{' :: (mid ++ '}' :: post)) = some ('{' :: (mid ++ ['}'])) := by
  induction pre with
  | nil =>
    simp only [List.nil_append, extractBraceBlock, if_pos rfl]
    rw [upToClose_spec mid post hmid]
    rfl
  | cons a t ih =>
    have ha : a ≠ '{' := fun he => hpre (he ▸ List.mem_cons_self a t)
    simp only [List.cons_append, extractBraceBlock, if_neg ha]
    exact ih (fun hm => hpre (List.mem_cons_of_mem a hm))

/-- A successful upToClose means a closing brace occurs in the text. -/
theorem upToClose_some_decomp (t : Str) :
    ∀ m, upToClose t = some m → ∃ mid post, t = mid ++ '}' :: post := by
  induction t with
  | nil => intro m h; cases h
  | cons a r ih =>
    intro m h
    by_cases ha : a = '}'
    · exact ⟨[], r, by rw [ha]; rfl⟩
    · simp only [upToClose, if_neg ha] at h
      cases hu : upToClose r with
      | none => rw [hu] at h; cases h
      | some m2 =>
        obtain ⟨mid, post, hdec⟩ := ih m2 hu
        exact ⟨a :: mid, post, by rw [hdec]; rfl⟩

/-- A successful extraction means an opening brace with a later closing
brace occurs in the text. -/
theorem extract_some_decomp (s : Str) :
    ∀ b, extractBraceBlock s = some b →
      ∃ pre mid post, s = pre ++ '{' :: (mid ++ '}' :: post) := by
  induction s with
  | nil => intro b h; cases h
  | cons c t ih =>
    intro b h
    by_cases hc : c = '{'
    · subst hc
      simp only [extractBraceBlock, if_pos rfl] at h
      cases hu : upToClose t with
      | none => rw [hu] at h; cases h
      | some m =>
        obtain ⟨mid, post, hdec⟩ := upToClose_some_decomp t m hu
        exact ⟨[], mid, post, by rw [hdec]; rfl⟩
    · simp only [extractBraceBlock, if_neg hc] at h
      obtain ⟨pre, mid, post, hdec⟩ := ih b h
      exact ⟨c :: pre, mid, post, by rw [hdec]; rfl⟩

/-- C9: the hint parser extracts the substring from the first opening brace
to the next closing brace and passes exactly that substring to the decoding
chain; when the text contains no opening brace followed by a closing brace,
extraction and the whole parse return nothing (the Python code reports the
unstructured response and returns None instead of raising). -/
theorem C9_llm_extraction (s : Str) :
    (∀ pre mid post, s = pre ++ '{' :: (mid ++ '}' :: post) → '{' ∉ pre → '}' ∉ mid →
      extractBraceBlock s = some ('{' :: (mid ++ ['}'])) ∧
      parse_query_llm_text s = decode_block ('{' :: (mid ++ ['}']))) ∧
    ((∀ pre mid post, s ≠ pre ++ '{' :: (mid ++ '}' :: post)) →
      extractBraceBlock s = none ∧ parse_query_llm_text s = none) := by
  constructor
  · intro pre mid post hdec hpre hmid
    subst hdec
    have he := extract_decomp_pos pre mid post hpre hmid
    refine ⟨he, ?_⟩
    unfold parse_query_llm_text
    rw [he]
  · intro hno
    have hnone : extractBraceBlock s = none := by
      cases hb : extractBraceBlock s with
      | none => rfl
      | some b =>
        obtain ⟨pre, mid, post, hdec⟩ := extract_some_decomp s b hb
        exact absurd hdec (hno pre mid post)
    refine ⟨hnone, ?_⟩
    unfold parse_query_llm_text
    rw [hnone]

/-- C9 witness: a concrete response with one brace block. -/
theorem C9_witness :
    extractBraceBlock ['x', '{', 'a', '}', 'b'] = some ['{', 'a', '}'] ∧
      parse_query_llm_text ['x', '{', 'a', '}', 'b'] = decode_block ['{', 'a', '}'] := by
  have h := (C9_llm_extraction ['x', '{', 'a', '}', 'b']).1 ['x'] ['a'] ['b']
    rfl (by decide) (by decide)
  exact ⟨h.1, h.2⟩

/-! Claim C10: nested objects are truncated by the extraction.

The argument: any input accepted by the JSON value parser is brace-balanced
outside its string literals (each consumed segment is scan-neutral), so the
scanner-balance check is a necessary condition for json.loads to succeed;
the eval fallback model checks the same balance up front.  A block cut at
the first closing brace that still holds a structural second opening brace
is unbalanced, so the whole decode chain fails. -/

end CreatorInsight
